import Mathlib

/-!
Verification of the FIFO cost-basis engine of `trades_to_laskuri.py`
(`process_trades_for_laskuri`).

Shallow embedding conventions:
* Python numbers are modelled as exact rationals (`ℚ`).  The script works on
  `float`s, but every behaviour the claims speak about is decided by the
  decimal values the script manipulates, so `ℚ` with explicit decimal
  rounding at the points where the script formats-and-reparses numbers is the
  faithful model.
* The script's string round-trips `f"{x:.8f}"` / `f"{x:.2f}"` followed by
  `float(...)` (lines 41-46 and 71-72 of the source) are modelled by
  `roundToDigits 8` and `roundToDigits 2` (nearest, ties to even, matching
  Python float formatting).  The `fee` column is read raw (line 84) and is
  not rounded.
* The per-row iteration (lines 49-63 for the running balance, 68-118 for the
  FIFO matching) becomes structural recursion over the event list, threading
  the mutable `purchase_queue` explicitly.
-/

/-- One entry of `purchase_queue` (line 75: `{'remaining': amount, 'price':
price_per_unit}`). -/
structure Lot where
  remaining : ℚ
  price : ℚ
  deriving DecidableEq, Repr

/-- One row of the converted table, as the engine loops see it: `isBuy`
distinguishes `'Osto'` from `'Myynti'`; `amount` is `amount_numeric`,
`price` is `price_per_unit`, `total` is the parsed `YHTEENSÄ` value and
`fee` the raw `fee` column. -/
structure Event where
  isBuy : Bool
  amount : ℚ
  price : ℚ
  total : ℚ
  fee : ℚ
  deriving DecidableEq, Repr

/-- The values computed for a `'Myynti'` row (lines 80-118).  `fifoInParens`
records which branch of the parenthesisation choice at lines 109-112 was
taken: `true` when `cost_plus_fee < deemed_acq_cost`, i.e. when the FIFO
figure is the parenthesised one. -/
structure SellInfo where
  purchase_cost : ℚ
  cost_plus_fee : ℚ
  deemed_acq_cost : ℚ
  applicable_cost : ℚ
  profit_or_loss : ℚ
  fifoInParens : Bool
  deriving DecidableEq, Repr

/-- The hard-coded `0.2` at line 100 (`# 20% deemed acquisition cost`). -/
def DEEMED_COST_RATE : ℚ := 1 / 5

/-- The FIFO matching loop, lines 87-95:
`while remaining_amount > 0 and purchase_queue:` take
`used = min(remaining_amount, head.remaining)` from the head lot, accumulate
`used * head.price` into `purchase_cost`, and pop the head when its remaining
amount drops to `<= 0`.  Returns the accumulated `purchase_cost` and the
queue left behind. -/
def sellLoop (rem : ℚ) : List Lot → ℚ × List Lot
  | [] => (0, [])
  | lot :: rest =>
    if 0 < rem then
      let used := min rem lot.remaining
      let newRem := lot.remaining - used
      if newRem ≤ 0 then
        let r := sellLoop (rem - used) rest
        (used * lot.price + r.1, r.2)
      else
        (used * lot.price, ⟨newRem, lot.price⟩ :: rest)
    else
      (0, lot :: rest)

/-- Processing of one row of the step-3 loop (lines 68-118): a buy appends a
lot to the queue tail (line 75) and writes no cost fields; a sell runs the
FIFO loop, then computes `cost_plus_fee` (line 98), `deemed_acq_cost`
(line 100), `applicable_cost` (line 101) and `profit_or_loss` (line 102),
and records the parenthesisation branch of lines 109-112. -/
def processRow (q : List Lot) (e : Event) : Option SellInfo × List Lot :=
  if e.isBuy then
    (none, q ++ [⟨e.amount, e.price⟩])
  else
    let r := sellLoop e.amount q
    let cpf := r.1 + e.fee
    let deemed := e.price * DEEMED_COST_RATE * e.amount
    (some { purchase_cost := r.1
            cost_plus_fee := cpf
            deemed_acq_cost := deemed
            applicable_cost := max cpf deemed
            profit_or_loss := e.total - max cpf deemed
            fifoInParens := decide (cpf < deemed) }, r.2)

/-- The step-3 loop over all rows in input order, starting from queue `q`:
the per-row `SellInfo` outputs (`none` for buys) and the final queue. -/
def processAll (q : List Lot) : List Event → List (Option SellInfo) × List Lot
  | [] => ([], q)
  | e :: es =>
    let r := processRow q e
    let rest := processAll r.2 es
    (r.1 :: rest.1, rest.2)

/-- The `SellInfo` of a single row. -/
def rowInfo (q : List Lot) (e : Event) : Option SellInfo :=
  (processRow q e).1

/-- One step of the `currency_remaining` accumulation (lines 52-61):
`+= amount` on `'Osto'`, `-= amount` on `'Myynti'`. -/
def balanceStep (bal : ℚ) (e : Event) : ℚ :=
  if e.isBuy then bal + e.amount else bal - e.amount

/-- The `currency_remaining_list` built by the step-2 loop (lines 49-63):
the cumulative balance after each row. -/
def runningList (bal : ℚ) : List Event → List ℚ
  | [] => []
  | e :: es =>
    let b := balanceStep bal e
    b :: runningList b es

/-- A buy event as it enters the loops. -/
def mkBuy (a p t f : ℚ) : Event := ⟨true, a, p, t, f⟩

/-- A sell event as it enters the loops. -/
def mkSell (a p t f : ℚ) : Event := ⟨false, a, p, t, f⟩

/-- Nearest integer, ties to even — the rounding Python float formatting
performs when a value sits halfway between two representable decimals. -/
def rndHalfEven (x : ℚ) : ℤ :=
  let f := Int.floor x
  let frac := x - (f : ℚ)
  if frac < 1 / 2 then f
  else if 1 / 2 < frac then f + 1
  else if f % 2 = 0 then f else f + 1

/-- `f"\x7bx:.df\x7d"` followed by `float(...)`: round `x` to `d` fractional
decimal digits. -/
def roundToDigits (d : ℕ) (x : ℚ) : ℚ :=
  (rndHalfEven (x * 10 ^ d) : ℚ) / 10 ^ d

/-- What lines 41-46 and 71-72 do to the raw CSV values before any engine
loop runs: the amount is formatted to 8 fractional digits and reparsed
(`amount_numeric`), the unit price and the total to 2 digits; the `fee`
column is used raw (line 84). -/
def ingest (e : Event) : Event :=
  { e with
    amount := roundToDigits 8 e.amount
    price := roundToDigits 2 e.price
    total := roundToDigits 2 e.total }

/-- Sum of `remaining` over the open lots of a queue. -/
def lotSum (q : List Lot) : ℚ :=
  (q.map Lot.remaining).sum

/-- The signed quantity a row contributes to the running balance. -/
def signedQty (e : Event) : ℚ :=
  if e.isBuy then e.amount else -e.amount

/-- Sum of the amounts of all buy rows. -/
def sumBuyQty (es : List Event) : ℚ :=
  ((es.filter (·.isBuy)).map Event.amount).sum

/-- Sum of the amounts of all sell rows. -/
def sumSellQty (es : List Event) : ℚ :=
  ((es.filter (fun e => !e.isBuy)).map Event.amount).sum

/-- `true` while no sell row asks for more than the queue holds (and no sell
amount is negative): the regime in which the source's FIFO loop fully
matches every sale. -/
def validEventsB : List Lot → List Event → Bool
  | _, [] => true
  | q, e :: es =>
    (e.isBuy || (decide (0 ≤ e.amount) && decide (e.amount ≤ lotSum q))) &&
      validEventsB (processRow q e).2 es

/-- Modelled from the spec: the oversell check of §4.1 step 3 / §7, which is
absent from the source.  Runs the same FIFO loop but fails with the unmatched
residual quantity when the queue empties while `remaining_to_match` is still
positive (`InsufficientLotsError`); the source instead exits its `while`
loop silently. -/
def specSellLoop (rem : ℚ) : List Lot → Except ℚ (ℚ × List Lot)
  | [] => if 0 < rem then .error rem else .ok (0, [])
  | lot :: rest =>
    if 0 < rem then
      let used := min rem lot.remaining
      let newRem := lot.remaining - used
      if newRem ≤ 0 then
        match specSellLoop (rem - used) rest with
        | .error r => .error r
        | .ok r => .ok (used * lot.price + r.1, r.2)
      else
        .ok (used * lot.price, ⟨newRem, lot.price⟩ :: rest)
    else
      .ok (0, lot :: rest)

/-- Big-step relation of one engine invocation: `Run q es out qf` holds when
processing the rows `es` starting from purchase queue `q` emits the per-row
outputs `out` and leaves final queue `qf`.  Each invocation of the script
runs this from the fresh empty queue built at line 66. -/
inductive Run : List Lot → List Event → List (Option SellInfo) → List Lot → Prop
  | nil (q : List Lot) : Run q [] [] q
  | cons (q : List Lot) (e : Event) (es : List Event)
      (out : List (Option SellInfo)) (qf : List Lot)
      (h : Run (processRow q e).2 es out qf) :
      Run q (e :: es) ((processRow q e).1 :: out) qf

/-! Helper lemmas about the loops. -/

/-- With nothing left to match the FIFO loop leaves the queue alone. -/
theorem sellLoop_zero (q : List Lot) : sellLoop 0 q = (0, q) := by
  cases q <;> simp [sellLoop]

/-- A sale covered by the head lot is matched entirely against it: it costs
`rem * lot.price`, and the head is popped exactly when fully consumed. -/
theorem sellLoop_head (lot : Lot) (rest : List Lot) (rem : ℚ)
    (h0 : 0 < rem) (hle : rem ≤ lot.remaining) :
    sellLoop rem (lot :: rest) =
      (rem * lot.price,
        if rem = lot.remaining then rest
        else ⟨lot.remaining - rem, lot.price⟩ :: rest) := by
  have hmin : min rem lot.remaining = rem := min_eq_left hle
  by_cases heq : rem = lot.remaining
  · subst heq
    have hz : lot.remaining - min lot.remaining lot.remaining ≤ 0 := by simp
    simp only [sellLoop, if_pos h0, if_pos hz]
    simp [sellLoop_zero]
  · have hlt : rem < lot.remaining := lt_of_le_of_ne hle heq
    have hz : ¬ lot.remaining - min rem lot.remaining ≤ 0 := by
      rw [hmin]; simpa using hlt
    simp only [sellLoop, if_pos h0, if_neg hz]
    rw [hmin]
    simp [heq]

/-- Each iteration of the FIFO loop removes from the queue exactly what it
removes from `remaining_to_match`, so when the sale is covered by the queue
the total open quantity drops by exactly the sold amount. -/
theorem sellLoop_lotSum : ∀ (q : List Lot) (rem : ℚ), 0 ≤ rem →
    rem ≤ lotSum q → lotSum (sellLoop rem q).2 = lotSum q - rem := by
  intro q
  induction q with
  | nil =>
    intro rem h0 hle
    have hz : rem = 0 := le_antisymm (by simpa [lotSum] using hle) h0
    simp [sellLoop, hz, lotSum]
  | cons lot rest ih =>
    intro rem h0 hle
    by_cases hpos : 0 < rem
    · by_cases hpop : lot.remaining - min rem lot.remaining ≤ 0
      · have husd : min rem lot.remaining = lot.remaining :=
          le_antisymm (min_le_right _ _) (by linarith)
        have h1 : (0 : ℚ) ≤ rem - min rem lot.remaining := by
          have := min_le_left rem lot.remaining; linarith
        have h2 : rem - min rem lot.remaining ≤ lotSum rest := by
          have hsum : lotSum (lot :: rest) = lot.remaining + lotSum rest := by
            simp [lotSum]
          rw [husd]; rw [hsum] at hle; linarith
        have := ih (rem - min rem lot.remaining) h1 h2
        simp only [sellLoop, if_pos hpos, if_pos hpop]
        rw [this, husd]
        simp [lotSum]
        ring
      · have husd : min rem lot.remaining = rem := by
          rcases min_cases rem lot.remaining with h | h
          · exact h.1
          · exact absurd (by rw [h.1] at hpop ⊢; linarith) hpop
        simp only [sellLoop, if_pos hpos, if_neg hpop]
        simp [lotSum, husd]
        ring
    · have hz : rem = 0 := le_antisymm (not_lt.mp hpos) h0
      subst hz
      simp [sellLoop_zero]

/-- A sell touches only a head prefix of the queue: the resulting queue is a
suffix of the original, except that its first lot may be the partially
consumed survivor, which keeps its price and loses some quantity. -/
theorem sellLoop_frame : ∀ (q : List Lot) (rem : ℚ), ∃ k,
    (sellLoop rem q).2 = q.drop k ∨
      ∃ lot tail r, q.drop k = lot :: tail ∧
        (sellLoop rem q).2 = ⟨r, lot.price⟩ :: tail ∧ r < lot.remaining := by
  intro q
  induction q with
  | nil => intro rem; exact ⟨0, Or.inl (by simp [sellLoop])⟩
  | cons lot rest ih =>
    intro rem
    by_cases hpos : 0 < rem
    · by_cases hpop : lot.remaining - min rem lot.remaining ≤ 0
      · obtain ⟨k, hk⟩ := ih (rem - min rem lot.remaining)
        refine ⟨k + 1, ?_⟩
        have hq : (sellLoop rem (lot :: rest)).2 =
            (sellLoop (rem - min rem lot.remaining) rest).2 := by
          simp [sellLoop, hpos, hpop]
        rw [hq, List.drop_succ_cons]
        exact hk
      · refine ⟨0, Or.inr ⟨lot, rest, lot.remaining - min rem lot.remaining,
          rfl, ?_, ?_⟩⟩
        · simp [sellLoop, hpos, hpop]
        · have husd : min rem lot.remaining = rem := by
            rcases min_cases rem lot.remaining with h | h
            · exact h.1
            · exact absurd (by rw [h.1] at hpop ⊢; linarith) hpop
          have : 0 < min rem lot.remaining := by rw [husd]; exact hpos
          linarith
    · exact ⟨0, Or.inl (by simp [sellLoop, hpos])⟩

/-- The balance accumulation adds the signed quantity of the row. -/
theorem balanceStep_eq (b : ℚ) (e : Event) :
    balanceStep b e = b + signedQty e := by
  unfold balanceStep signedQty
  cases e.isBuy
  · simp
    ring
  · simp

/-- The final balance of the step-2 loop is the start plus the signed sum. -/
theorem foldl_balanceStep : ∀ (es : List Event) (b : ℚ),
    List.foldl balanceStep b es = b + (es.map signedQty).sum := by
  intro es
  induction es with
  | nil => intro b; simp
  | cons e es ih =>
    intro b
    simp only [List.foldl_cons, List.map_cons, List.sum_cons, ih,
      balanceStep_eq]
    ring

/-- The signed sum splits into buy total minus sell total. -/
theorem signed_sum : ∀ es : List Event,
    (es.map signedQty).sum = sumBuyQty es - sumSellQty es := by
  intro es
  induction es with
  | nil => simp [sumBuyQty, sumSellQty]
  | cons e es ih =>
    cases hb : e.isBuy
    · simp [sumBuyQty, sumSellQty, signedQty, List.filter, hb, ih]
      ring
    · simp [sumBuyQty, sumSellQty, signedQty, List.filter, hb, ih]
      ring

/-- Entry `i` of `currency_remaining_list` is the start balance plus the
signed sum of the first `i + 1` rows. -/
theorem runningList_get : ∀ (es : List Event) (b : ℚ) (i : ℕ)
    (h : i < (runningList b es).length),
    (runningList b es).get ⟨i, h⟩ =
      b + ((es.take (i + 1)).map signedQty).sum := by
  intro es
  induction es with
  | nil => intro b i h; simp [runningList] at h
  | cons e es ih =>
    intro b i h
    cases i with
    | zero => simp [runningList, balanceStep_eq]
    | succ n =>
      have hn : n < (runningList (balanceStep b e) es).length := by
        simpa [runningList] using h
      have := ih (balanceStep b e) n hn
      simp only [runningList, List.get] at this ⊢
      rw [this, balanceStep_eq]
      simp [List.take_cons]
      ring

/-- Conservation: starting from a balance equal to the open-lot total, the
step-2 balance tracks the open-lot total of the step-3 queue as long as
every sell is covered. -/
theorem conserve : ∀ (es : List Event) (q : List Lot) (b : ℚ),
    validEventsB q es = true → b = lotSum q →
    List.foldl balanceStep b es = lotSum (processAll q es).2 := by
  intro es
  induction es with
  | nil => intro q b _ hb; simpa [processAll] using hb
  | cons e es ih =>
    intro q b hv hb
    rw [validEventsB, Bool.and_eq_true, Bool.or_eq_true,
      Bool.and_eq_true, decide_eq_true_eq, decide_eq_true_eq] at hv
    simp only [processAll, List.foldl_cons]
    apply ih _ _ hv.2
    cases hbuy : e.isBuy with
    | true =>
      simp [balanceStep, hbuy, hb, processRow, lotSum]
    | false =>
      have hbounds : 0 ≤ e.amount ∧ e.amount ≤ lotSum q := by
        rcases hv.1 with h | h
        · rw [hbuy] at h; cases h
        · exact h
      have := sellLoop_lotSum q e.amount hbounds.1 hbounds.2
      simp [balanceStep, hbuy, hb, processRow, this]

/-- Any invocation traced by `Run` computes exactly `processAll`. -/
theorem Run_processAll : ∀ (es : List Event) (q : List Lot),
    Run q es (processAll q es).1 (processAll q es).2 := by
  intro es
  induction es with
  | nil => intro q; exact Run.nil q
  | cons e es ih =>
    intro q
    exact Run.cons q e es _ _ (ih (processRow q e).2)

/-- Two derivations of `Run` from the same queue and rows agree. -/
theorem Run_det : ∀ {q es out₁ qf₁}, Run q es out₁ qf₁ →
    ∀ {out₂ qf₂}, Run q es out₂ qf₂ → out₁ = out₂ ∧ qf₁ = qf₂ := by
  intro q es out₁ qf₁ h₁
  induction h₁ with
  | nil q =>
    intro out₂ qf₂ h₂
    cases h₂
    exact ⟨rfl, rfl⟩
  | cons q e es out qf h ih =>
    intro out₂ qf₂ h₂
    cases h₂ with
    | cons _ _ _ out' qf' h' =>
      obtain ⟨ho, hq⟩ := ih h'
      exact ⟨by rw [ho], hq⟩

/-! Claim theorems. -/

/-- C1 counterexample: the source does not fail on an oversold sale.  On
`Sell(qty=5)` with no prior buy the spec-modelled loop reports
`InsufficientLotsError` with residual 5, but the source's loop returns
normally with a clamped FIFO cost of 0 and the row still gets a full result,
so the claimed failure never happens. -/
theorem C1_counterexample :
    specSellLoop 5 [] = .error 5 ∧
    sellLoop 5 [] = (0, []) ∧
    rowInfo [] (mkSell 5 10 50 1) = some ⟨0, 1, 10, 10, 40, true⟩ := by
  refine ⟨by norm_num [specSellLoop], rfl, ?_⟩
  norm_num [rowInfo, processRow, sellLoop, mkSell, DEEMED_COST_RATE]

/-- C1 (amended): on an oversold sale the engine silently clamps instead of
failing: the FIFO loop simply stops when the queue is empty, the unmatched
residual is dropped, and the row still receives a result; in particular a
sell of 5 with no prior buy yields FIFO cost 0 and an empty queue. -/
theorem C1_oversell_clamps : ∀ p t f : ℚ,
    (processRow [] (mkSell 5 p t f)).2 = [] ∧
    (rowInfo [] (mkSell 5 p t f)).map SellInfo.purchase_cost = some 0 ∧
    ∀ r : ℚ, sellLoop r [] = (0, []) := by
  intro p t f
  refine ⟨rfl, rfl, fun r => rfl⟩

/-- C2: the FIFO loop consumes lots strictly in queue order.  A sale covered
by the head lot is matched entirely against it at the head price, and the
head is popped exactly when fully used; concretely, Buy(1@10), Buy(1@20),
Sell(1) costs 10 and leaves the 20-lot; Buy(3@10), Sell(2) leaves exactly
one lot ⟨1, 10⟩; and the following Sell(2) consumes that lot (10) plus one
unit of the next lot (20), costing 30. -/
theorem C2_fifo_order :
    (∀ (lot : Lot) (rest : List Lot) (rem : ℚ), 0 < rem →
      rem ≤ lot.remaining →
      sellLoop rem (lot :: rest) =
        (rem * lot.price,
          if rem = lot.remaining then rest
          else ⟨lot.remaining - rem, lot.price⟩ :: rest)) ∧
    (processAll [] [mkBuy 1 10 10 0, mkBuy 1 20 20 0, mkSell 1 15 15 0] =
      ([none, none, some ⟨10, 10, 3, 10, 5, false⟩], [⟨1, 20⟩])) ∧
    (processAll [] [mkBuy 3 10 30 0, mkSell 2 20 40 0] =
      ([none, some ⟨20, 20, 8, 20, 20, false⟩], [⟨1, 10⟩])) ∧
    (processAll []
        [mkBuy 3 10 30 0, mkBuy 2 20 40 0, mkSell 2 20 40 0,
          mkSell 2 20 40 0] =
      ([none, none, some ⟨20, 20, 8, 20, 20, false⟩,
          some ⟨30, 30, 8, 30, 10, false⟩], [⟨1, 20⟩])) := by
  refine ⟨sellLoop_head, ?_, ?_, ?_⟩ <;>
    norm_num [processAll, processRow, sellLoop, mkBuy, mkSell,
      DEEMED_COST_RATE]

/-- C2 witness: the head-order matching applied to the concrete queue
[⟨3, 10⟩, ⟨2, 20⟩] with a sale of 2. -/
theorem C2_witness :
    (0 : ℚ) < 2 ∧ (2 : ℚ) ≤ (Lot.mk 3 10).remaining ∧
    sellLoop 2 [⟨3, 10⟩, ⟨2, 20⟩] =
      (2 * (Lot.mk 3 10).price,
        if (2 : ℚ) = (Lot.mk 3 10).remaining then [⟨2, 20⟩]
        else [⟨(Lot.mk 3 10).remaining - 2, (Lot.mk 3 10).price⟩,
          ⟨2, 20⟩]) := by
  refine ⟨by norm_num, by norm_num, ?_⟩
  exact C2_fifo_order.1 ⟨3, 10⟩ [⟨2, 20⟩] 2 (by norm_num) (by norm_num)

/-- C3: every sell row is reported with
`deemed_acq_cost = price * DEEMED_COST_RATE * amount` where
`DEEMED_COST_RATE = 0.20`, `applicable_cost = max (fifo cost + fee) deemed`
(the fee enters only the FIFO side), and
`profit_or_loss = total - applicable_cost`. -/
theorem C3_deemed_cost : ∀ (a p t f : ℚ) (q : List Lot),
    DEEMED_COST_RATE = 20 / 100 ∧
    rowInfo q (mkSell a p t f) = some
      { purchase_cost := (sellLoop a q).1
        cost_plus_fee := (sellLoop a q).1 + f
        deemed_acq_cost := p * DEEMED_COST_RATE * a
        applicable_cost :=
          max ((sellLoop a q).1 + f) (p * DEEMED_COST_RATE * a)
        profit_or_loss :=
          t - max ((sellLoop a q).1 + f) (p * DEEMED_COST_RATE * a)
        fifoInParens :=
          decide ((sellLoop a q).1 + f < p * DEEMED_COST_RATE * a) } := by
  intro a p t f q
  exact ⟨by norm_num [DEEMED_COST_RATE], rfl⟩

/-- C4 counterexample: the engine does not work on the unrounded inputs.  A
buy of 10⁻⁹ units is rounded to 8 fractional digits at ingestion (lines
41-46), so the FIFO queue records a lot of 0 units, not 10⁻⁹. -/
theorem C4_counterexample :
    (ingest (mkBuy (1 / 10 ^ 9) 10 0 0)).amount = 0 ∧
    (1 / 10 ^ 9 : ℚ) ≠ 0 ∧
    processRow [] (ingest (mkBuy (1 / 10 ^ 9) 10 0 0)) =
      (none, [⟨0, 10⟩]) := by
  have h8 : roundToDigits 8 (((10 : ℚ) ^ 9)⁻¹) = 0 := by
    norm_num [roundToDigits, rndHalfEven]
  have h2 : roundToDigits 2 (10 : ℚ) = 10 := by
    norm_num [roundToDigits, rndHalfEven]
  refine ⟨?_, by norm_num, ?_⟩
  · simp [ingest, mkBuy, one_div, h8]
  · simp [ingest, mkBuy, processRow, one_div, h8, h2]

/-- C4 (amended): rounding happens at ingestion, not only at presentation:
before the loops run, the amount is rounded to 8 fractional digits and the
unit price and total to 2 (lines 41-46 and 71-72); the loops then compute
exactly on those rounded values, and only the fee passes through unrounded.
A buy therefore enqueues ⟨round₈ amount, round₂ price⟩ and a sell matches
round₈ amount against the queue. -/
theorem C4_rounded_at_ingest : ∀ (a p t f : ℚ) (q : List Lot),
    processRow q (ingest (mkBuy a p t f)) =
      (none, q ++ [⟨roundToDigits 8 a, roundToDigits 2 p⟩]) ∧
    (rowInfo q (ingest (mkSell a p t f))).map SellInfo.purchase_cost =
      some (sellLoop (roundToDigits 8 a) q).1 ∧
    (ingest (mkSell a p t f)).fee = f := by
  intro a p t f q
  exact ⟨rfl, rfl, rfl⟩

/-- C5 counterexample: a zero-quantity sell does not always realize 0.  With
fee 1 and total 0 the source computes `applicable = max (0 + 1) 0 = 1` and
`profit_or_loss = 0 - 1 = -1 ≠ 0`. -/
theorem C5_counterexample :
    (rowInfo [] (mkSell 0 5 0 1)).map SellInfo.profit_or_loss =
      some (-1) ∧ (-1 : ℚ) ≠ 0 := by
  refine ⟨?_, by norm_num⟩
  norm_num [rowInfo, processRow, sellLoop, mkSell, DEEMED_COST_RATE]

/-- C5 (amended): a zero-quantity sell leaves the queue unchanged and still
emits a result, but its realized gain is `total - max fee 0`, which is 0
only when the total equals the (nonnegative) fee — not for every fee. -/
theorem C5_zero_qty : ∀ (p t f : ℚ) (q : List Lot),
    (processRow q (mkSell 0 p t f)).2 = q ∧
    (rowInfo q (mkSell 0 p t f)).map SellInfo.profit_or_loss =
      some (t - max f 0) := by
  intro p t f q
  have h := sellLoop_zero q
  constructor
  · simp [processRow, mkSell, h]
  · simp [rowInfo, processRow, mkSell, h, DEEMED_COST_RATE]

/-- C6 counterexample: no validation happens.  A buy with negative quantity
and negative price raises nothing and mutates the queue: the engine appends
the malformed lot ⟨-1, -2⟩. -/
theorem C6_counterexample :
    processRow [] (mkBuy (-1) (-2) 0 0) = (none, [⟨-1, -2⟩]) ∧
    ([(⟨-1, -2⟩ : Lot)] : List Lot) ≠ [] := by
  exact ⟨rfl, by simp⟩

/-- C6 (amended): the source performs no input validation at all: there is
no `InvalidEventError`, and a malformed event (here a buy with negative
quantity) is processed by the ordinary arithmetic, mutating the queue by
appending the negative lot. -/
theorem C6_no_validation : ∀ (a p t f : ℚ) (q : List Lot), a < 0 →
    processRow q (mkBuy a p t f) = (none, q ++ [⟨a, p⟩]) ∧
    q ++ [⟨a, p⟩] ≠ q := by
  intro a p t f q _
  refine ⟨rfl, fun hcon => ?_⟩
  have hlen := congrArg List.length hcon
  simp at hlen

/-- C6 witness: the amended statement at the concrete malformed buy
⟨qty = -1, price = -2⟩ on the empty queue. -/
theorem C6_witness :
    (-1 : ℚ) < 0 ∧
    (processRow [] (mkBuy (-1) (-2) 0 0) = (none, [] ++ [⟨-1, -2⟩]) ∧
      [] ++ [(⟨-1, -2⟩ : Lot)] ≠ ([] : List Lot)) :=
  ⟨by norm_num, C6_no_validation (-1) (-2) 0 0 [] (by norm_num)⟩

/-- C7 counterexample: since the source never raises any
`InsufficientLotsError`, the oversold sequence [Sell 5] also runs to
completion, and there the final balance (-5) differs from the open-lot total
(0): the claimed equality fails. -/
theorem C7_counterexample :
    runningList 0 [mkSell 5 10 50 1] = [-5] ∧
    List.foldl balanceStep 0 [mkSell 5 10 50 1] = -5 ∧
    lotSum (processAll [] [mkSell 5 10 50 1]).2 = 0 ∧
    (-5 : ℚ) ≠ 0 := by
  refine ⟨?_, ?_, ?_, by norm_num⟩ <;>
    norm_num [runningList, balanceStep, processAll, processRow, sellLoop,
      mkSell, lotSum, DEEMED_COST_RATE]

/-- C7 (amended): when every sell is covered by the queue (no oversell —
the guard the missing `InsufficientLotsError` was meant to provide), the
running balance is the signed cumulative sum after each row, the final
balance is total buys minus total sells, and it equals the open quantity
left in the queue. -/
theorem C7_conservation : ∀ es : List Event, validEventsB [] es = true →
    (∀ i (h : i < (runningList 0 es).length),
      (runningList 0 es).get ⟨i, h⟩ =
        ((es.take (i + 1)).map signedQty).sum) ∧
    List.foldl balanceStep 0 es = sumBuyQty es - sumSellQty es ∧
    List.foldl balanceStep 0 es = lotSum (processAll [] es).2 := by
  intro es hv
  refine ⟨?_, ?_, ?_⟩
  · intro i h
    simpa using runningList_get es 0 i h
  · rw [foldl_balanceStep, signed_sum]
    ring
  · exact conserve es [] 0 hv (by simp [lotSum])

/-- C7 witness: conservation on the concrete covered sequence
Buy(3@10); Sell(2@20). -/
theorem C7_witness :
    validEventsB [] [mkBuy 3 10 30 0, mkSell 2 20 40 0] = true ∧
    List.foldl balanceStep 0 [mkBuy 3 10 30 0, mkSell 2 20 40 0] =
      sumBuyQty [mkBuy 3 10 30 0, mkSell 2 20 40 0] -
        sumSellQty [mkBuy 3 10 30 0, mkSell 2 20 40 0] ∧
    List.foldl balanceStep 0 [mkBuy 3 10 30 0, mkSell 2 20 40 0] =
      lotSum (processAll [] [mkBuy 3 10 30 0, mkSell 2 20 40 0]).2 := by
  have hv : validEventsB [] [mkBuy 3 10 30 0, mkSell 2 20 40 0] = true := by
    norm_num [validEventsB, processRow, mkBuy, mkSell, lotSum, sellLoop,
      DEEMED_COST_RATE]
  exact ⟨hv, (C7_conservation _ hv).2.1, (C7_conservation _ hv).2.2⟩

/-- C8: on an exact tie `cost_plus_fee = deemed_acq_cost` the FIFO side is
selected: the comparison at line 109 is strict, so the tie falls into the
branch that leaves the FIFO figure bare and parenthesises the deemed figure,
and the applicable cost equals `cost_plus_fee`. -/
theorem C8_tie_break : ∀ (a p t f : ℚ) (q : List Lot) (info : SellInfo),
    rowInfo q (mkSell a p t f) = some info →
    info.cost_plus_fee = info.deemed_acq_cost →
    info.fifoInParens = false ∧
      info.applicable_cost = info.cost_plus_fee := by
  intro a p t f q info h htie
  have h' : ({ purchase_cost := (sellLoop a q).1
               cost_plus_fee := (sellLoop a q).1 + f
               deemed_acq_cost := p * DEEMED_COST_RATE * a
               applicable_cost :=
                 max ((sellLoop a q).1 + f) (p * DEEMED_COST_RATE * a)
               profit_or_loss :=
                 t - max ((sellLoop a q).1 + f) (p * DEEMED_COST_RATE * a)
               fifoInParens :=
                 decide ((sellLoop a q).1 + f <
                   p * DEEMED_COST_RATE * a) } : SellInfo) = info :=
    Option.some.inj h
  subst h'
  simp only at htie ⊢
  constructor
  · exact decide_eq_false (by rw [htie]; exact lt_irrefl _)
  · rw [htie, max_self]

/-- C8 witness: the tie at Buy(1@1) then Sell(1@5, fee 0):
`cost_plus_fee = 1 = deemed_acq_cost`, the FIFO figure is the one chosen. -/
theorem C8_witness :
    rowInfo [⟨1, 1⟩] (mkSell 1 5 5 0) = some ⟨1, 1, 1, 1, 4, false⟩ ∧
    (SellInfo.mk 1 1 1 1 4 false).cost_plus_fee =
      (SellInfo.mk 1 1 1 1 4 false).deemed_acq_cost ∧
    ((SellInfo.mk 1 1 1 1 4 false).fifoInParens = false ∧
      (SellInfo.mk 1 1 1 1 4 false).applicable_cost =
        (SellInfo.mk 1 1 1 1 4 false).cost_plus_fee) := by
  have h : rowInfo [⟨1, 1⟩] (mkSell 1 5 5 0) =
      some ⟨1, 1, 1, 1, 4, false⟩ := by
    norm_num [rowInfo, processRow, sellLoop, mkSell, DEEMED_COST_RATE]
  exact ⟨h, rfl, C8_tie_break 1 5 5 0 [⟨1, 1⟩] _ h rfl⟩

/-- C9: the engine is deterministic: two invocations on the same row
sequence, each starting from the fresh empty queue of line 66, produce the
same outputs and the same final queue. -/
theorem C9_deterministic : ∀ (es : List Event)
    (out₁ : List (Option SellInfo)) (qf₁ : List Lot)
    (out₂ : List (Option SellInfo)) (qf₂ : List Lot),
    Run [] es out₁ qf₁ → Run [] es out₂ qf₂ →
    out₁ = out₂ ∧ qf₁ = qf₂ := by
  intro es out₁ qf₁ out₂ qf₂ h₁ h₂
  exact Run_det h₁ h₂

/-- C9 witness: two concrete invocations on the one-buy sequence agree. -/
theorem C9_witness :
    (processAll [] [mkBuy 1 2 2 0]).1 = (processAll [] [mkBuy 1 2 2 0]).1 ∧
    (processAll [] [mkBuy 1 2 2 0]).2 = (processAll [] [mkBuy 1 2 2 0]).2 :=
  C9_deterministic [mkBuy 1 2 2 0] _ _ _ _
    (Run_processAll [mkBuy 1 2 2 0] []) (Run_processAll [mkBuy 1 2 2 0] [])

/-- C10: frame property of one event.  A buy only appends one lot at the
tail, leaving every existing lot untouched; a sell leaves a suffix of the
queue, where at most the surviving head lot lost quantity and its price is
unchanged — lots beyond the consumed prefix are untouched and no price is
ever rewritten. -/
theorem C10_frame : ∀ (a p t f : ℚ) (q : List Lot),
    processRow q (mkBuy a p t f) = (none, q ++ [⟨a, p⟩]) ∧
    ∀ rem : ℚ, ∃ k,
      (sellLoop rem q).2 = q.drop k ∨
        ∃ lot tail r, q.drop k = lot :: tail ∧
          (sellLoop rem q).2 = ⟨r, lot.price⟩ :: tail ∧
          r < lot.remaining := by
  intro a p t f q
  exact ⟨rfl, fun rem => sellLoop_frame q rem⟩
